import Mathlib

/-!
Verification of the Deduplication & Clustering Engine of the
compiler-news pipeline (`pipelines/dedupe_cluster.py`, helpers in
`pipelines/util.py`).

The engine, after fetching a recency-ordered sample of rows
`(id, title, text)`:
1. replaces NULL titles/bodies by `""` and builds per-document input
   `(title ++ "\n" ++ text).strip()`;
2. vectorizes with TF-IDF and computes an all-pairs cosine similarity
   matrix (external scikit-learn calls; modelled where needed);
3. partitions indices `0..N-1` by a single-pass leader-greedy scan with a
   similarity threshold;
4. persists one row per member into the `clusters` table with
   `cluster_id = "c_" + sha1(concat of member ids)[:16]`, using
   `INSERT ... ON CONFLICT (id) DO NOTHING`;
5. reports group-count / size statistics.

Numbers compared against the threshold are embedded as rationals, the
`clusters` table as a list of rows inserted at the end, and the `seen`
set of the grouper as a `Finset ℕ`.
-/

/-! ## Leader-greedy grouper (`dedupe_cluster.py`, step 4) -/

/-- Inner scan of the grouper: for each `j` in `js` (the indices
`i+1, …, n-1`), skip it if already seen, otherwise claim it for the
current group when `sim i j ≥ th`.  Returns the claimed tail of the
group (in scan order) together with the updated `seen` set.  Direct
translation of the `for j in range(i + 1, len(rows))` loop. -/
def groupScan (sim : Nat → Nat → ℚ) (th : ℚ) (i : Nat) :
    List Nat → Finset Nat → List Nat × Finset Nat
  | [], seen => ([], seen)
  | j :: js, seen =>
    if j ∈ seen then groupScan sim th i js seen
    else if sim i j ≥ th then
      let p := groupScan sim th i js (insert j seen)
      (j :: p.1, p.2)
    else groupScan sim th i js seen

/-- Outer loop of the grouper: for each index `i` in order, skip it if
seen, otherwise open the group `i :: tail` where `tail` is produced by
`groupScan` over `i+1, …, n-1`.  Translation of the
`for i in range(len(rows))` loop. -/
def groupLoop (sim : Nat → Nat → ℚ) (th : ℚ) (n : Nat) :
    List Nat → Finset Nat → List (List Nat)
  | [], _ => []
  | i :: rest, seen =>
    if i ∈ seen then groupLoop sim th n rest seen
    else
      let p := groupScan sim th i (List.range' (i + 1) (n - (i + 1))) (insert i seen)
      (i :: p.1) :: groupLoop sim th n rest p.2

/-- The leader-greedy grouper: partition `0..n-1` given the similarity
matrix `sim` and threshold `th` (step 4 of `main`). -/
def greedyGroups (sim : Nat → Nat → ℚ) (th : ℚ) (n : Nat) : List (List Nat) :=
  groupLoop sim th n (List.range n) ∅

/-! ## SHA-1 (`pipelines/util.py`, `sha1`)

`util.sha1` returns `hashlib.sha1(s.encode("utf-8")).hexdigest()`.
`hashlib` is external, so the hash is embedded here as the SHA-1
algorithm of FIPS 180-4 over a UTF-8 byte list, with 32-bit words as
naturals reduced mod `2^32`. -/

/-- UTF-8 encoding of one code point (as produced by Python
`str.encode("utf-8")`). -/
def utf8Char (c : Nat) : List Nat :=
  if c < 128 then [c]
  else if c < 2048 then [192 + c / 64, 128 + c % 64]
  else if c < 65536 then [224 + c / 4096, 128 + c / 64 % 64, 128 + c % 64]
  else [240 + c / 262144, 128 + c / 4096 % 64, 128 + c / 64 % 64, 128 + c % 64]

/-- UTF-8 bytes of a string. -/
def utf8Bytes (s : String) : List Nat :=
  s.data.flatMap (fun c => utf8Char c.toNat)

/-- Combine two naturals bit-by-bit (up to `fuel` bits) with the boolean
operation `f`; used to express the 32-bit logical operations of SHA-1 by
kernel-friendly arithmetic. -/
def bitMix (f : Bool → Bool → Bool) : Nat → Nat → Nat → Nat
  | 0, _, _ => 0
  | fuel + 1, x, y =>
    (if f (x % 2 == 1) (y % 2 == 1) then 1 else 0) + 2 * bitMix f fuel (x / 2) (y / 2)

/-- 32-bit exclusive or. -/
def xor32 (x y : Nat) : Nat := bitMix (fun a b => a != b) 32 x y

/-- 32-bit conjunction. -/
def and32 (x y : Nat) : Nat := bitMix (fun a b => a && b) 32 x y

/-- 32-bit disjunction. -/
def or32 (x y : Nat) : Nat := bitMix (fun a b => a || b) 32 x y

/-- 32-bit complement (argument assumed `< 2^32`). -/
def not32 (x : Nat) : Nat := 4294967295 - x % 4294967296

/-- Rotate a 32-bit word left by `k` bits. -/
def rotl (k x : Nat) : Nat := x % 2 ^ (32 - k) * 2 ^ k + x / 2 ^ (32 - k)

/-- Big-endian bytes (`k` of them) of a natural number. -/
def beBytes : Nat → Nat → List Nat
  | 0, _ => []
  | k + 1, v => v / 2 ^ (8 * k) % 256 :: beBytes k v

/-- SHA-1 padding: append `0x80`, zero bytes to reach 56 mod 64, then the
bit length as 8 big-endian bytes. -/
def sha1Pad (msg : List Nat) : List Nat :=
  msg ++ 128 :: List.replicate ((119 - msg.length % 64) % 64) 0 ++ beBytes 8 (8 * msg.length)

/-- Split a byte list into 64-byte chunks (`fuel` bounds the recursion by
the length of the list). -/
def chunks64 : Nat → List Nat → List (List Nat)
  | 0, _ => []
  | _, [] => []
  | fuel + 1, l => l.take 64 :: chunks64 fuel (l.drop 64)

/-- Big-endian 32-bit words of a chunk of bytes. -/
def beWords : List Nat → List Nat
  | b0 :: b1 :: b2 :: b3 :: rest => (((b0 * 256 + b1) * 256 + b2) * 256 + b3) :: beWords rest
  | _ => []

/-- Extend the 16 words of a chunk by `k` further words with the SHA-1
recurrence `w[t] = rotl1 (w[t-3] xor w[t-8] xor w[t-14] xor w[t-16])`. -/
def sha1Extend (w : List Nat) : Nat → List Nat
  | 0 => w
  | k + 1 =>
    let i := w.length
    sha1Extend
      (w ++ [rotl 1 (xor32 (xor32 (w.getD (i - 3) 0) (w.getD (i - 8) 0))
        (xor32 (w.getD (i - 14) 0) (w.getD (i - 16) 0)))]) k

/-- Round function of SHA-1 for round `t`. -/
def sha1F (t b c d : Nat) : Nat :=
  if t < 20 then or32 (and32 b c) (and32 (not32 b) d)
  else if t < 40 then xor32 (xor32 b c) d
  else if t < 60 then or32 (or32 (and32 b c) (and32 b d)) (and32 c d)
  else xor32 (xor32 b c) d

/-- Round constant of SHA-1 for round `t`. -/
def sha1K (t : Nat) : Nat :=
  if t < 20 then 1518500249
  else if t < 40 then 1859775393
  else if t < 60 then 2400959708
  else 3395469782

/-- The 80 SHA-1 rounds over the extended word schedule. -/
def sha1Rounds : Nat → List Nat → Nat × Nat × Nat × Nat × Nat → Nat × Nat × Nat × Nat × Nat
  | _, [], st => st
  | t, w :: ws, (a, b, c, d, e) =>
    sha1Rounds (t + 1) ws
      ((rotl 5 a + sha1F t b c d + e + sha1K t + w) % 4294967296, a, rotl 30 b, c, d)

/-- Process one 64-byte chunk, updating the five hash words. -/
def sha1Chunk (h : Nat × Nat × Nat × Nat × Nat) (chunk : List Nat) :
    Nat × Nat × Nat × Nat × Nat :=
  let st := sha1Rounds 0 (sha1Extend (beWords chunk) 64) h
  ((h.1 + st.1) % 4294967296, (h.2.1 + st.2.1) % 4294967296,
    (h.2.2.1 + st.2.2.1) % 4294967296, (h.2.2.2.1 + st.2.2.2.1) % 4294967296,
    (h.2.2.2.2 + st.2.2.2.2) % 4294967296)

/-- Lowercase hexadecimal digit. -/
def hexDigit (n : Nat) : Char :=
  if n < 10 then Char.ofNat (48 + n) else Char.ofNat (87 + n)

/-- Big-endian hexadecimal rendering of a value as `k` digits. -/
def hexChars : Nat → Nat → List Char
  | 0, _ => []
  | k + 1, v => hexDigit (v / 16 ^ k % 16) :: hexChars k v

/-- SHA-1 hex digest of a string, as returned by
`hashlib.sha1(s.encode("utf-8")).hexdigest()` in `util.sha1`. -/
def sha1 (s : String) : String :=
  let bytes := sha1Pad (utf8Bytes s)
  let h := (chunks64 bytes.length bytes).foldl sha1Chunk
    (1732584193, 4023233417, 2562383102, 271733878, 3285377520)
  (hexChars 8 h.1 ++ hexChars 8 h.2.1 ++ hexChars 8 h.2.2.1 ++
    hexChars 8 h.2.2.2.1 ++ hexChars 8 h.2.2.2.2).asString

/-! ## Persistence into the `clusters` table (step 5) -/

/-- One row of the `clusters` table (`summary` is stored as its JSON
text; the engine always writes `json.dumps({}) = "\x7b\x7d"`). -/
structure ClusterRow where
  cluster_id : String
  id : String
  title : String
  summary : String
deriving DecidableEq, Repr

/-- Whether the table already has a row with primary key `d`. -/
def hasKey (t : List ClusterRow) (d : String) : Bool :=
  t.any (fun r => r.id == d)

/-- `INSERT ... ON CONFLICT (id) DO NOTHING`: append the row unless its
key exists; the second component is the statement's rowcount. -/
def insertRow (t : List ClusterRow) (r : ClusterRow) : List ClusterRow × Nat :=
  if hasKey t r.id then (t, 0) else (t ++ [r], 1)

/-- Cluster identity of a group, from the concatenated member document
ids in group order: `"c_" + sha1("".join(ids[k] for k in g))[:16]`. -/
def clusterId (memberIds : List String) : String :=
  "c_" ++ (sha1 (String.join memberIds)).take 16

/-- Insert one row per group member (`for k in g`), accumulating the
number of newly inserted rows. -/
def persistMembers (ids titles : List String) (cid : String) :
    List Nat → List ClusterRow → List ClusterRow × Nat
  | [], t => (t, 0)
  | k :: ks, t =>
    let p := insertRow t ⟨cid, ids.getD k "", titles.getD k "", "\x7b\x7d"⟩
    let q := persistMembers ids titles cid ks p.1
    (q.1, p.2 + q.2)

/-- Persist all groups (`for g in groups`): skip empty groups, derive the
group's `cluster_id`, insert each member, and accumulate `created`. -/
def persistGroups (ids titles : List String) :
    List (List Nat) → List ClusterRow → List ClusterRow × Nat
  | [], t => (t, 0)
  | g :: gs, t =>
    if g.isEmpty then persistGroups ids titles gs t
    else
      let cid := clusterId (g.map (fun k => ids.getD k ""))
      let p := persistMembers ids titles cid g t
      let q := persistGroups ids titles gs p.1
      (q.1, p.2 + q.2)

/-! ## Sample rows and the main flow (steps 1–5) -/

/-- A row fetched from `articles_clean` (`SELECT id, title, text`);
`title` and `text` are nullable columns. -/
structure SampleRow where
  id : String
  title : Option String
  text : Option String
deriving DecidableEq, Repr

/-- Document ids of the sample (`ids = [r[0] for r in rows]`). -/
def rowIds (rows : List SampleRow) : List String :=
  rows.map (fun r => r.id)

/-- Titles with NULL replaced by `""` (`titles = [r[1] or "" for r in rows]`). -/
def rowTitles (rows : List SampleRow) : List String :=
  rows.map (fun r => r.title.getD "")

/-- Bodies with NULL replaced by `""` (`texts = [r[2] or "" for r in rows]`). -/
def rowTexts (rows : List SampleRow) : List String :=
  rows.map (fun r => r.text.getD "")

/-- Vectorizer inputs
(`docs = [(titles[i] + "\n" + texts[i]).strip() for i in ...]`). -/
def rowDocs (rows : List SampleRow) : List String :=
  (List.range rows.length).map
    (fun i => ((rowTitles rows).getD i "" ++ "\n" ++ (rowTexts rows).getD i "").trim)

/-- The engine after fetching `rows`, parameterised by the similarity
matrix builder `simOf` (standing for TF-IDF vectorization followed by
cosine similarity on the documents) and the threshold: group, then
persist into the table `t`.  Returns the new table and `created`.  An
empty sample returns early with no writes. -/
def clusterMain (simOf : List String → Nat → Nat → ℚ) (th : ℚ)
    (rows : List SampleRow) (t : List ClusterRow) : List ClusterRow × Nat :=
  if rows.isEmpty then (t, 0)
  else
    persistGroups (rowIds rows) (rowTitles rows)
      (greedyGroups (simOf (rowDocs rows)) th rows.length) t

/-! ## Run report (step 6) -/

/-- The summary surfaced by `kv_table("[cluster] 汇总", …)`. -/
structure RunReport where
  groups : Nat
  links_written : Nat
  largest_group : Nat
  median_group : Nat
  singleton_groups : Nat
deriving DecidableEq, Repr

/-- The report computed from the emitted groups and the `created`
counter: `sizes = sorted((len(g) for g in groups), reverse=True)`, then
`sizes[0]`, `sizes[len(sizes)//2]` (both `0` when empty) and the number
of singleton sizes. -/
def mkReport (groups : List (List Nat)) (created : Nat) : RunReport :=
  let sizes := List.insertionSort (fun a b => a ≥ b) (groups.map List.length)
  { groups := groups.length
    links_written := created
    largest_group := sizes.getD 0 0
    median_group := sizes.getD (sizes.length / 2) 0
    singleton_groups := sizes.countP (fun s => s == 1) }

/-! ## Properties of the grouper -/

/-- The `seen` set after an inner scan is the `seen` set before it
together with the indices the scan claimed. -/
theorem groupScan_snd_mem (sim : Nat → Nat → ℚ) (th : ℚ) (i : Nat) :
    ∀ (js : List Nat) (seen : Finset Nat) (x : Nat),
      x ∈ (groupScan sim th i js seen).2 ↔
        x ∈ seen ∨ x ∈ (groupScan sim th i js seen).1 := by
  intro js
  induction js with
  | nil => intro seen x; simp [groupScan]
  | cons j js ih =>
    intro seen x
    by_cases hj : j ∈ seen
    · simpa [groupScan, hj] using ih seen x
    · by_cases hsim : sim i j ≥ th
      · simp only [groupScan, if_neg hj, if_pos hsim]
        rw [ih]
        simp only [Finset.mem_insert, List.mem_cons]
        tauto
      · simpa [groupScan, hj, hsim] using ih seen x

/-- Indices claimed by an inner scan come from the scanned range and
were not previously seen. -/
theorem groupScan_fst_mem (sim : Nat → Nat → ℚ) (th : ℚ) (i : Nat) :
    ∀ (js : List Nat) (seen : Finset Nat) (x : Nat),
      x ∈ (groupScan sim th i js seen).1 → x ∈ js ∧ x ∉ seen := by
  intro js
  induction js with
  | nil => intro seen x hx; simp [groupScan] at hx
  | cons j js ih =>
    intro seen x hx
    by_cases hj : j ∈ seen
    · rw [show groupScan sim th i (j :: js) seen = groupScan sim th i js seen from by
        simp [groupScan, hj]] at hx
      rcases ih seen x hx with ⟨h1, h2⟩
      exact ⟨List.mem_cons_of_mem _ h1, h2⟩
    · by_cases hsim : sim i j ≥ th
      · simp only [groupScan, if_neg hj, if_pos hsim, List.mem_cons] at hx
        rcases hx with rfl | hx
        · exact ⟨List.mem_cons_self _ _, hj⟩
        · rcases ih (insert j seen) x hx with ⟨h1, h2⟩
          simp only [Finset.mem_insert, not_or] at h2
          exact ⟨List.mem_cons_of_mem _ h1, h2.2⟩
      · rw [show groupScan sim th i (j :: js) seen = groupScan sim th i js seen from by
          simp [groupScan, hj, hsim]] at hx
        rcases ih seen x hx with ⟨h1, h2⟩
        exact ⟨List.mem_cons_of_mem _ h1, h2⟩

/-- The tail claimed by an inner scan has no duplicates. -/
theorem groupScan_fst_nodup (sim : Nat → Nat → ℚ) (th : ℚ) (i : Nat) :
    ∀ (js : List Nat) (seen : Finset Nat), (groupScan sim th i js seen).1.Nodup := by
  intro js
  induction js with
  | nil => intro seen; simp [groupScan]
  | cons j js ih =>
    intro seen
    by_cases hj : j ∈ seen
    · simpa [groupScan, hj] using ih seen
    · by_cases hsim : sim i j ≥ th
      · simp only [groupScan, if_neg hj, if_pos hsim]
        refine List.Nodup.cons ?_ (ih (insert j seen))
        intro hmem
        have := (groupScan_fst_mem sim th i js (insert j seen) j hmem).2
        simp at this
      · simpa [groupScan, hj, hsim] using ih seen

/-- Invariant of the outer loop on the suffix `a, …, n-1` of the index
range: the emitted groups are non-empty, their concatenation has no
duplicates, and it contains exactly the indices of `[a, n)` that were
not already seen. -/
theorem groupLoop_spec (sim : Nat → Nat → ℚ) (th : ℚ) (n : Nat) :
    ∀ (k a : Nat) (seen : Finset Nat), a + k = n →
      (∀ g ∈ groupLoop sim th n (List.range' a k) seen, g ≠ []) ∧
      (groupLoop sim th n (List.range' a k) seen).flatten.Nodup ∧
      (∀ x, x ∈ (groupLoop sim th n (List.range' a k) seen).flatten ↔
        a ≤ x ∧ x < n ∧ x ∉ seen) := by
  intro k
  induction k with
  | zero =>
    intro a seen han
    refine ⟨by simp [groupLoop], by simp [groupLoop], ?_⟩
    intro x
    simp only [List.range'_zero, groupLoop, List.flatten_nil, List.not_mem_nil, false_iff]
    rintro ⟨h1, h2, _⟩
    omega
  | succ k ih =>
    intro a seen han
    rw [List.range'_succ]
    by_cases ha : a ∈ seen
    · have hrec := ih (a + 1) seen (by omega)
      rw [show groupLoop sim th n (a :: List.range' (a + 1) k) seen =
          groupLoop sim th n (List.range' (a + 1) k) seen from by simp [groupLoop, ha]]
      refine ⟨hrec.1, hrec.2.1, ?_⟩
      intro x
      rw [hrec.2.2 x]
      constructor
      · rintro ⟨h1, h2, h3⟩; exact ⟨by omega, h2, h3⟩
      · rintro ⟨h1, h2, h3⟩
        have hxa : x ≠ a := fun he => h3 (he ▸ ha)
        exact ⟨by omega, h2, h3⟩
    · rw [show groupLoop sim th n (a :: List.range' (a + 1) k) seen =
          (a :: (groupScan sim th a (List.range' (a + 1) (n - (a + 1))) (insert a seen)).1) ::
            groupLoop sim th n (List.range' (a + 1) k)
              (groupScan sim th a (List.range' (a + 1) (n - (a + 1))) (insert a seen)).2
          from by simp [groupLoop, ha]]
      set p := groupScan sim th a (List.range' (a + 1) (n - (a + 1))) (insert a seen) with hp
      have hrec := ih (a + 1) p.2 (by omega)
      have hmem₁ : ∀ x ∈ p.1, (a + 1 ≤ x ∧ x < n) ∧ x ∉ insert a seen := by
        intro x hx
        have h := groupScan_fst_mem sim th a _ _ x hx
        refine ⟨?_, h.2⟩
        have := List.mem_range'_1.1 h.1
        omega
      have hseen₂ : ∀ x, x ∈ p.2 ↔ x ∈ insert a seen ∨ x ∈ p.1 :=
        fun x => groupScan_snd_mem sim th a _ _ x
      constructor
      · intro g hg
        rcases List.mem_cons.1 hg with hg | hg
        · rw [hg]; simp
        · exact hrec.1 g hg
      constructor
      · rw [List.flatten_cons, List.nodup_append]
        refine ⟨?_, hrec.2.1, ?_⟩
        · refine List.Nodup.cons ?_ (groupScan_fst_nodup sim th a _ _)
          intro hmem
          have := (hmem₁ a hmem).2
          simp at this
        · intro x hx hx2
          have hxp2 : x ∈ p.2 := by
            rcases List.mem_cons.1 hx with rfl | hx1
            · exact (hseen₂ x).2 (Or.inl (Finset.mem_insert_self _ _))
            · exact (hseen₂ x).2 (Or.inr hx1)
          exact ((hrec.2.2 x).1 hx2).2.2 hxp2
      · intro x
        rw [List.flatten_cons, List.mem_append, List.mem_cons, hrec.2.2 x]
        constructor
        · rintro ((rfl | hx) | ⟨h1, h2, h3⟩)
          · exact ⟨le_refl _, by omega, ha⟩
          · rcases hmem₁ x hx with ⟨⟨h1, h2⟩, h3⟩
            simp only [Finset.mem_insert, not_or] at h3
            exact ⟨by omega, h2, h3.2⟩
          · refine ⟨by omega, h2, ?_⟩
            intro hxs
            exact h3 ((hseen₂ x).2 (Or.inl (Finset.mem_insert_of_mem hxs)))
        · rintro ⟨h1, h2, h3⟩
          by_cases hxa : x = a
          · exact Or.inl (Or.inl hxa)
          · by_cases hxp : x ∈ p.2
            · rcases (hseen₂ x).1 hxp with hx1 | hx1
              · rcases Finset.mem_insert.1 hx1 with rfl | hx2
                · exact absurd rfl hxa
                · exact absurd hx2 h3
              · exact Or.inl (Or.inr hx1)
            · exact Or.inr ⟨by omega, h2, hxp⟩

/-- Claim C1: on every sample of `n` documents and every threshold, the
leader-greedy grouper emits a partition of `0..n-1`: all groups are
non-empty and duplicate-free, the groups are pairwise disjoint, and
their concatenation contains an index iff it is a sample index (hence
every sampled index appears in exactly one emitted group). -/
theorem greedyGroups_partition (sim : Nat → Nat → ℚ) (th : ℚ) (n : Nat) :
    (∀ g ∈ greedyGroups sim th n, g ≠ []) ∧
    (∀ g ∈ greedyGroups sim th n, g.Nodup) ∧
    List.Pairwise List.Disjoint (greedyGroups sim th n) ∧
    (∀ x, x ∈ (greedyGroups sim th n).flatten ↔ x < n) := by
  have h := groupLoop_spec sim th n n 0 ∅ (by omega)
  rw [← List.range_eq_range'] at h
  have hnodup := List.nodup_flatten.1 h.2.1
  refine ⟨h.1, hnodup.1, hnodup.2, ?_⟩
  intro x
  simp only [greedyGroups]
  rw [h.2.2 x]
  simp

/-- The inner scan only evaluates the similarity of the leader `i`
against the scanned indices `js`. -/
theorem groupScan_congr (sim sim' : Nat → Nat → ℚ) (th : ℚ) (i : Nat) :
    ∀ (js : List Nat) (seen : Finset Nat), (∀ j ∈ js, sim i j = sim' i j) →
      groupScan sim th i js seen = groupScan sim' th i js seen := by
  intro js
  induction js with
  | nil => intro seen _; simp [groupScan]
  | cons j js ih =>
    intro seen hsim
    have hj := hsim j (List.mem_cons_self _ _)
    have hrest : ∀ j' ∈ js, sim i j' = sim' i j' :=
      fun j' hj' => hsim j' (List.mem_cons_of_mem _ hj')
    simp only [groupScan, hj, ih _ hrest]

/-- The outer loop only evaluates the similarity at pairs `(i, j)` with
`i < j`. -/
theorem groupLoop_congr (sim sim' : Nat → Nat → ℚ) (th : ℚ) (n : Nat)
    (h : ∀ i j, i < j → sim i j = sim' i j) :
    ∀ (rest : List Nat) (seen : Finset Nat),
      groupLoop sim th n rest seen = groupLoop sim' th n rest seen := by
  intro rest
  induction rest with
  | nil => intro seen; simp [groupLoop]
  | cons i rest ih =>
    intro seen
    have hscan : groupScan sim th i (List.range' (i + 1) (n - (i + 1))) (insert i seen) =
        groupScan sim' th i (List.range' (i + 1) (n - (i + 1))) (insert i seen) := by
      refine groupScan_congr sim sim' th i _ _ ?_
      intro j hj
      have := List.mem_range'_1.1 hj
      exact h i j (by omega)
    simp only [groupLoop, hscan, ih]

/-- Claim C10: the emitted partition depends only on the strict upper
triangle of the similarity matrix — two matrices that agree on every
entry `sim i j` with `i < j` produce identical group lists; the grouper
never reads the diagonal or the lower triangle. -/
theorem greedyGroups_upper_triangle (sim sim' : Nat → Nat → ℚ) (th : ℚ) (n : Nat)
    (h : ∀ i j, i < j → sim i j = sim' i j) :
    greedyGroups sim th n = greedyGroups sim' th n :=
  groupLoop_congr sim sim' th n h _ _

/-- Two concrete similarity matrices that agree above the diagonal but
differ on the diagonal and below it. -/
def simUpper (i j : Nat) : ℚ := if i < j then 1 else 0

/-- Variant of `simUpper` with a different diagonal and lower triangle. -/
def simLower (i j : Nat) : ℚ := if i < j then 1 else mkRat 1 2

/-- Witness for claim C10: the two matrices agree above the diagonal,
so the grouper produces the same partition of `0, 1, 2` for both. -/
theorem greedyGroups_upper_triangle_witness :
    (∀ i j, i < j → simUpper i j = simLower i j) ∧
      greedyGroups simUpper (mkRat 1 2) 3 = greedyGroups simLower (mkRat 1 2) 3 := by
  have h : ∀ i j, i < j → simUpper i j = simLower i j := by
    intro i j hij
    simp [simUpper, simLower, hij]
  exact ⟨h, greedyGroups_upper_triangle simUpper simLower (mkRat 1 2) 3 h⟩

/-- The similarity matrix of the three-document example of the spec:
documents `A = 0`, `B = 1`, `C = 2` with `sim(A,B) = 0.6`,
`sim(A,C) = 0.3`, `sim(B,C) = 0.7`, symmetric with unit diagonal. -/
def simABC (i j : Nat) : ℚ :=
  if i = j then 1
  else if (i, j) = (0, 1) ∨ (i, j) = (1, 0) then mkRat 6 10
  else if (i, j) = (0, 2) ∨ (i, j) = (2, 0) then mkRat 3 10
  else if (i, j) = (1, 2) ∨ (i, j) = (2, 1) then mkRat 7 10
  else 0

/-- Claim C2: with three documents A, B, C in that order,
`sim(A,B) = 0.6`, `sim(A,C) = 0.3`, `sim(B,C) = 0.7` and threshold
`0.5`, the grouper produces exactly the two groups `{A, B}` and `{C}`:
`C` is compared only against the leader `A` (similarity `0.3`, below the
threshold), never against the member `B`, so `sim(B,C) = 0.7` does not
merge `C` into A's group. -/
theorem greedyGroups_non_transitive :
    greedyGroups simABC (mkRat 5 10) 3 = [[0, 1], [2]] := by decide

/-! ## Properties of persistence -/

/-- Key presence distributes over table concatenation. -/
theorem hasKey_append (t1 t2 : List ClusterRow) (d : String) :
    hasKey (t1 ++ t2) d = (hasKey t1 d || hasKey t2 d) := by
  simp [hasKey, List.any_append]

/-- A conflicting insert is a no-op with rowcount `0`. -/
theorem insertRow_conflict {t : List ClusterRow} {r : ClusterRow}
    (h : hasKey t r.id = true) : insertRow t r = (t, 0) := by
  simp only [insertRow, h, if_true]

/-- A non-conflicting insert appends the row with rowcount `1`. -/
theorem insertRow_fresh {t : List ClusterRow} {r : ClusterRow}
    (h : hasKey t r.id = false) : insertRow t r = (t ++ [r], 1) := by
  simp only [insertRow, h, Bool.false_eq_true, if_false]

/-- Unfolding equation of `persistMembers` on a member. -/
theorem persistMembers_cons (ids titles : List String) (cid : String)
    (k : Nat) (ks : List Nat) (t : List ClusterRow) :
    persistMembers ids titles cid (k :: ks) t =
      ((persistMembers ids titles cid ks
          (insertRow t ⟨cid, ids.getD k "", titles.getD k "", "\x7b\x7d"⟩).1).1,
        (insertRow t ⟨cid, ids.getD k "", titles.getD k "", "\x7b\x7d"⟩).2 +
          (persistMembers ids titles cid ks
            (insertRow t ⟨cid, ids.getD k "", titles.getD k "", "\x7b\x7d"⟩).1).2) := rfl

/-- Inserting a member list only appends: the previous table is a
prefix, the reported count is the number of appended rows, and every
appended row was fresh and carries the group's `cluster_id`, the
member's document id and title, and the empty summary. -/
theorem persistMembers_ext (ids titles : List String) (cid : String) :
    ∀ (ks : List Nat) (t : List ClusterRow),
      ∃ ext, (persistMembers ids titles cid ks t).1 = t ++ ext ∧
        (persistMembers ids titles cid ks t).2 = ext.length ∧
        ∀ r ∈ ext, hasKey t r.id = false ∧
          ∃ k ∈ ks, r = ⟨cid, ids.getD k "", titles.getD k "", "\x7b\x7d"⟩ := by
  intro ks
  induction ks with
  | nil => intro t; exact ⟨[], by simp [persistMembers], by simp [persistMembers], by simp⟩
  | cons k ks ih =>
    intro t
    by_cases hk : hasKey t (ids.getD k "") = true
    · rcases ih t with ⟨ext, h1, h2, h3⟩
      refine ⟨ext, ?_, ?_, ?_⟩
      · rw [persistMembers_cons, insertRow_conflict hk]
        exact h1
      · rw [persistMembers_cons, insertRow_conflict hk]
        simpa using h2
      · intro r hr
        rcases h3 r hr with ⟨hf, k', hk', hform⟩
        exact ⟨hf, k', List.mem_cons_of_mem _ hk', hform⟩
    · rw [Bool.not_eq_true] at hk
      rcases ih (t ++ [⟨cid, ids.getD k "", titles.getD k "", "\x7b\x7d"⟩]) with ⟨ext, h1, h2, h3⟩
      refine ⟨⟨cid, ids.getD k "", titles.getD k "", "\x7b\x7d"⟩ :: ext, ?_, ?_, ?_⟩
      · rw [persistMembers_cons, insertRow_fresh hk]
        simpa using h1
      · rw [persistMembers_cons, insertRow_fresh hk]
        simp only [List.length_cons]
        omega
      · intro r hr
        rcases List.mem_cons.1 hr with rfl | hr
        · exact ⟨hk, k, List.mem_cons_self _ _, rfl⟩
        · rcases h3 r hr with ⟨hf, k', hk', hform⟩
          rw [hasKey_append] at hf
          exact ⟨(Bool.or_eq_false_iff.1 hf).1, k', List.mem_cons_of_mem _ hk', hform⟩

/-- After inserting the members of a group, each member's document id is
a key of the table. -/
theorem persistMembers_covers (ids titles : List String) (cid : String) :
    ∀ (ks : List Nat) (t : List ClusterRow), ∀ k ∈ ks,
      hasKey (persistMembers ids titles cid ks t).1 (ids.getD k "") = true := by
  intro ks
  induction ks with
  | nil => intro t k hk; simp at hk
  | cons k' ks ih =>
    intro t k hk
    rcases List.mem_cons.1 hk with rfl | hk
    · rcases persistMembers_ext ids titles cid ks
        ((insertRow t ⟨cid, ids.getD k "", titles.getD k "", "\x7b\x7d"⟩).1) with ⟨ext, h1, -, -⟩
      rw [persistMembers_cons, h1, hasKey_append]
      have hbase : hasKey (insertRow t ⟨cid, ids.getD k "", titles.getD k "", "\x7b\x7d"⟩).1
          (ids.getD k "") = true := by
        by_cases hk2 : hasKey t (ids.getD k "") = true
        · rw [insertRow_conflict hk2]; exact hk2
        · rw [Bool.not_eq_true] at hk2
          rw [insertRow_fresh hk2, hasKey_append]
          simp [hasKey]
      rw [hbase, Bool.true_or]
    · rw [persistMembers_cons]
      exact ih _ k hk

/-- A member scan over a table that already holds every member's key
writes nothing and reports zero new rows. -/
theorem persistMembers_noop (ids titles : List String) (cid : String) :
    ∀ (ks : List Nat) (t : List ClusterRow),
      (∀ k ∈ ks, hasKey t (ids.getD k "") = true) →
      persistMembers ids titles cid ks t = (t, 0) := by
  intro ks
  induction ks with
  | nil => intro t _; simp [persistMembers]
  | cons k ks ih =>
    intro t h
    rw [persistMembers_cons, insertRow_conflict (h k (List.mem_cons_self _ _))]
    rw [ih t (fun k' hk' => h k' (List.mem_cons_of_mem _ hk'))]
    rfl

/-- Unfolding equation of `persistGroups` on an empty group. -/
theorem persistGroups_cons_empty (ids titles : List String)
    (gs : List (List Nat)) (t : List ClusterRow) :
    persistGroups ids titles ([] :: gs) t = persistGroups ids titles gs t := rfl

/-- Unfolding equation of `persistGroups` on a non-empty group. -/
theorem persistGroups_cons (ids titles : List String) (k : Nat) (g : List Nat)
    (gs : List (List Nat)) (t : List ClusterRow) :
    persistGroups ids titles ((k :: g) :: gs) t =
      ((persistGroups ids titles gs
          (persistMembers ids titles (clusterId ((k :: g).map (fun m => ids.getD m "")))
            (k :: g) t).1).1,
        (persistMembers ids titles (clusterId ((k :: g).map (fun m => ids.getD m "")))
            (k :: g) t).2 +
          (persistGroups ids titles gs
            (persistMembers ids titles (clusterId ((k :: g).map (fun m => ids.getD m "")))
              (k :: g) t).1).2) := rfl

/-- Persisting all groups only appends: the previous table is a prefix,
`created` counts exactly the appended rows, and every appended row was
fresh and carries the identity of the group of one of its members. -/
theorem persistGroups_ext (ids titles : List String) :
    ∀ (gs : List (List Nat)) (t : List ClusterRow),
      ∃ ext, (persistGroups ids titles gs t).1 = t ++ ext ∧
        (persistGroups ids titles gs t).2 = ext.length ∧
        ∀ r ∈ ext, hasKey t r.id = false ∧
          ∃ g ∈ gs, ∃ k ∈ g,
            r = ⟨clusterId (g.map (fun m => ids.getD m "")),
              ids.getD k "", titles.getD k "", "\x7b\x7d"⟩ := by
  intro gs
  induction gs with
  | nil => intro t; exact ⟨[], by simp [persistGroups], by simp [persistGroups], by simp⟩
  | cons g gs ih =>
    intro t
    match g with
    | [] =>
      rcases ih t with ⟨ext, h1, h2, h3⟩
      rw [persistGroups_cons_empty]
      refine ⟨ext, h1, h2, ?_⟩
      intro r hr
      rcases h3 r hr with ⟨hf, g', hg', hform⟩
      exact ⟨hf, g', List.mem_cons_of_mem _ hg', hform⟩
    | k :: g =>
      rcases persistMembers_ext ids titles
        (clusterId ((k :: g).map (fun m => ids.getD m ""))) (k :: g) t with ⟨e1, m1, m2, m3⟩
      rcases ih (persistMembers ids titles
        (clusterId ((k :: g).map (fun m => ids.getD m ""))) (k :: g) t).1 with ⟨e2, g1, g2, g3⟩
      refine ⟨e1 ++ e2, ?_, ?_, ?_⟩
      · rw [persistGroups_cons, g1, m1, List.append_assoc]
      · rw [persistGroups_cons, g2, m2, List.length_append]
      · intro r hr
        rcases List.mem_append.1 hr with hr | hr
        · rcases m3 r hr with ⟨hf, k', hk', hform⟩
          exact ⟨hf, k :: g, List.mem_cons_self _ _, k', hk', hform⟩
        · rcases g3 r hr with ⟨hf, g', hg', k', hk', hform⟩
          rw [m1, hasKey_append] at hf
          exact ⟨(Bool.or_eq_false_iff.1 hf).1, g', List.mem_cons_of_mem _ hg', k', hk', hform⟩

/-- After persisting all groups, every member's document id is a key of
the table. -/
theorem persistGroups_covers (ids titles : List String) :
    ∀ (gs : List (List Nat)) (t : List ClusterRow), ∀ g ∈ gs, ∀ k ∈ g,
      hasKey (persistGroups ids titles gs t).1 (ids.getD k "") = true := by
  intro gs
  induction gs with
  | nil => intro t g hg; simp at hg
  | cons g' gs ih =>
    intro t g hg k hk
    match g' with
    | [] =>
      rw [persistGroups_cons_empty]
      rcases List.mem_cons.1 hg with rfl | hg
      · simp at hk
      · exact ih t g hg k hk
    | k' :: g' =>
      rw [persistGroups_cons]
      rcases List.mem_cons.1 hg with rfl | hg
      · rcases persistGroups_ext ids titles gs
          (persistMembers ids titles (clusterId ((k' :: g').map (fun m => ids.getD m "")))
            (k' :: g') t).1 with ⟨ext, h1, -, -⟩
        rw [h1, hasKey_append, persistMembers_covers ids titles _ (k' :: g') t k hk,
          Bool.true_or]
      · exact ih _ g hg k hk

/-- Persisting groups whose members' keys are all already present
writes nothing and reports zero new rows. -/
theorem persistGroups_noop (ids titles : List String) :
    ∀ (gs : List (List Nat)) (t : List ClusterRow),
      (∀ g ∈ gs, ∀ k ∈ g, hasKey t (ids.getD k "") = true) →
      persistGroups ids titles gs t = (t, 0) := by
  intro gs
  induction gs with
  | nil => intro t _; simp [persistGroups]
  | cons g gs ih =>
    intro t h
    match g with
    | [] =>
      rw [persistGroups_cons_empty]
      exact ih t (fun g' hg' => h g' (List.mem_cons_of_mem _ hg'))
    | k :: g =>
      rw [persistGroups_cons,
        persistMembers_noop ids titles _ (k :: g) t (h _ (List.mem_cons_self _ _))]
      rw [ih t (fun g' hg' => h g' (List.mem_cons_of_mem _ hg'))]
      rfl

/-- Claim C3: the persistence step is idempotent — for every similarity
builder, threshold, unchanged sample and starting table, running the
engine a second time over the table produced by the first run inserts
zero new rows and leaves every row of the first run's table exactly as
it was (in particular each document keeps the `cluster_id` stored by the
first run, which the second run recomputes identically from the same
groups). -/
theorem clusterMain_idempotent (simOf : List String → Nat → Nat → ℚ) (th : ℚ)
    (rows : List SampleRow) (t0 : List ClusterRow) :
    clusterMain simOf th rows (clusterMain simOf th rows t0).1 =
      ((clusterMain simOf th rows t0).1, 0) := by
  by_cases hrows : rows.isEmpty
  · simp [clusterMain, hrows]
  · simp only [clusterMain, hrows, Bool.false_eq_true, if_false]
    exact persistGroups_noop _ _ _ _
      (fun g hg k hk => persistGroups_covers _ _ _ t0 g hg k hk)

/-- Claim C4: a run never touches pre-existing assignments — for every
document id `d` already keyed in the starting table, the row found for
`d` after the run is exactly the row found before it (same `cluster_id`,
`title` and `summary`), no error occurs (the run is a total function),
and the reported `created` count equals the number of rows the run
appended beyond the starting table. -/
theorem clusterMain_immutable (simOf : List String → Nat → Nat → ℚ) (th : ℚ)
    (rows : List SampleRow) (t0 : List ClusterRow) (d : String)
    (h : hasKey t0 d = true) :
    List.find? (fun r => r.id == d) (clusterMain simOf th rows t0).1 =
      List.find? (fun r => r.id == d) t0 ∧
    (clusterMain simOf th rows t0).2 =
      (clusterMain simOf th rows t0).1.length - t0.length := by
  have hfind : (List.find? (fun r => r.id == d) t0).isSome := by
    rcases List.any_eq_true.1 h with ⟨r, hr, hrd⟩
    exact List.find?_isSome.2 ⟨r, hr, hrd⟩
  by_cases hrows : rows.isEmpty
  · simp [clusterMain, hrows]
  · simp only [clusterMain, hrows, Bool.false_eq_true, if_false]
    rcases persistGroups_ext (rowIds rows) (rowTitles rows)
      (greedyGroups (simOf (rowDocs rows)) th rows.length) t0 with ⟨ext, h1, h2, -⟩
    rw [h1, h2]
    constructor
    · rw [List.find?_append]
      rcases Option.isSome_iff_exists.1 hfind with ⟨r, hr⟩
      rw [hr, Option.or]
    · simp

/-- A table without key `d` has no row found for `d`. -/
theorem find?_eq_none_of_hasKey (t : List ClusterRow) (d : String)
    (h : hasKey t d = false) : List.find? (fun r => r.id == d) t = none := by
  refine List.find?_eq_none.2 ?_
  intro r hr
  simpa using List.any_eq_false.1 h r hr

/-- If some member of `ks` has document id `d` and `d` is not yet a key,
the member scan stores a row for `d` carrying the scan's `cluster_id`. -/
theorem persistMembers_find (ids titles : List String) (cid : String) :
    ∀ (ks : List Nat) (t : List ClusterRow) (d : String),
      hasKey t d = false → (∃ k ∈ ks, ids.getD k "" = d) →
      ∃ r, List.find? (fun row => row.id == d) (persistMembers ids titles cid ks t).1 =
          some r ∧ r.cluster_id = cid ∧ r.id = d := by
  intro ks
  induction ks with
  | nil => intro t d _ hex; simp at hex
  | cons k ks ih =>
    intro t d hfree hex
    by_cases hkd : ids.getD k "" = d
    · have hfresh : hasKey t (ids.getD k "") = false := by rw [hkd]; exact hfree
      rw [persistMembers_cons, insertRow_fresh hfresh]
      rcases persistMembers_ext ids titles cid ks
        (t ++ [⟨cid, ids.getD k "", titles.getD k "", "\x7b\x7d"⟩]) with ⟨ext, h1, -, -⟩
      rw [h1]
      refine ⟨⟨cid, ids.getD k "", titles.getD k "", "\x7b\x7d"⟩, ?_, rfl, hkd⟩
      rw [List.append_assoc, List.find?_append, find?_eq_none_of_hasKey t d hfree,
        Option.none_or, List.find?_append]
      have : List.find? (fun row => row.id == d)
          [(⟨cid, ids.getD k "", titles.getD k "", "\x7b\x7d"⟩ : ClusterRow)] =
          some ⟨cid, ids.getD k "", titles.getD k "", "\x7b\x7d"⟩ :=
        List.find?_cons_of_pos _ (by simpa using hkd)
      rw [this]
      simp [Option.or]
    · rcases hex with ⟨k', hk', hke⟩
      rcases List.mem_cons.1 hk' with rfl | hk'
      · exact absurd hke hkd
      rw [persistMembers_cons]
      by_cases hk2 : hasKey t (ids.getD k "") = true
      · rw [insertRow_conflict hk2]
        exact ih t d hfree ⟨k', hk', hke⟩
      · rw [Bool.not_eq_true] at hk2
        rw [insertRow_fresh hk2]
        refine ih _ d ?_ ⟨k', hk', hke⟩
        rw [hasKey_append, hfree, Bool.false_or]
        simp only [hasKey, List.any_cons, List.any_nil, Bool.or_false]
        simpa using fun he => hkd he

/-- If index `k` of group `g` has document id `d`, `d` is fresh, and no
other index across the groups maps to `d`, then after persisting all
groups the row found for `d` carries the `cluster_id` derived from `g`'s
member ids in group order. -/
theorem persistGroups_find (ids titles : List String) :
    ∀ (gs : List (List Nat)) (t : List ClusterRow) (g : List Nat) (k : Nat) (d : String),
      g ∈ gs → k ∈ g → ids.getD k "" = d → hasKey t d = false →
      gs.flatten.Nodup → (∀ m ∈ gs.flatten, ids.getD m "" = d → m = k) →
      ∃ r, List.find? (fun row => row.id == d) (persistGroups ids titles gs t).1 =
          some r ∧ r.cluster_id = clusterId (g.map (fun m => ids.getD m "")) := by
  intro gs
  induction gs with
  | nil => intro t g k d hg; simp at hg
  | cons g' gs ih =>
    intro t g k d hg hk hkd hfree hnodup huniq
    rcases List.mem_cons.1 hg with rfl | hgs
    · match g, hk with
      | k0 :: g0, hk =>
        rw [persistGroups_cons]
        rcases persistMembers_find ids titles
          (clusterId ((k0 :: g0).map (fun m => ids.getD m ""))) (k0 :: g0) t d hfree
          ⟨k, hk, hkd⟩ with ⟨r, hr, hrc, hri⟩
        rcases persistGroups_ext ids titles gs
          (persistMembers ids titles (clusterId ((k0 :: g0).map (fun m => ids.getD m "")))
            (k0 :: g0) t).1 with ⟨ext, h1, -, -⟩
        rw [h1, List.find?_append, hr]
        exact ⟨r, by simp [Option.or], hrc⟩
    · have hflat : gs.flatten.Nodup ∧ g'.Disjoint gs.flatten := by
        rw [List.flatten_cons, List.nodup_append] at hnodup
        exact ⟨hnodup.2.1, hnodup.2.2⟩
      have huniq' : ∀ m ∈ gs.flatten, ids.getD m "" = d → m = k := by
        intro m hm hmd
        exact huniq m (by rw [List.flatten_cons]; exact List.mem_append_right _ hm) hmd
      have hhead : ∀ m ∈ g', ids.getD m "" = d → m = k := fun m hm hmd =>
        huniq m (by rw [List.flatten_cons]; exact List.mem_append_left _ hm) hmd
      clear hg hnodup huniq
      cases g' with
      | nil =>
        rw [persistGroups_cons_empty]
        exact ih t g k d hgs hk hkd hfree hflat.1 huniq'
      | cons k' g0' =>
        rw [persistGroups_cons]
        refine ih _ g k d hgs hk hkd ?_ hflat.1 huniq'
        rcases persistMembers_ext ids titles
          (clusterId ((k' :: g0').map (fun m => ids.getD m ""))) (k' :: g0') t
          with ⟨ext, h1, -, h3⟩
        rw [h1, hasKey_append, hfree, Bool.false_or]
        by_contra hcon
        rw [Bool.not_eq_false] at hcon
        rcases List.any_eq_true.1 hcon with ⟨r, hr, hrd⟩
        rcases h3 r hr with ⟨-, m, hm, hform⟩
        have hmd : ids.getD m "" = d := by
          have : r.id = ids.getD m "" := by rw [hform]
          rw [← this]
          simpa using hrd
        have hmk : m = k := hhead m hm hmd
        subst hmk
        exact absurd (List.mem_flatten.2 ⟨g, hgs, hk⟩) (fun hin => hflat.2 hm hin)

set_option maxRecDepth 400000 in
/-- Claim C5: for every group `g` emitted by the grouper, a member
document whose id was not yet assigned is persisted with
`cluster_id = "c_" ++ first 16 hex characters of the SHA-1 of the
concatenation of the member document ids in group order` (leader first,
then members in claim order); and permuting the member order changes the
resulting id, witnessed by the two orders of the ids `docA`, `docB`. -/
theorem clusterMain_cluster_id (simOf : List String → Nat → Nat → ℚ) (th : ℚ)
    (rows : List SampleRow) (t0 : List ClusterRow) (g : List Nat) (k : Nat)
    (hg : g ∈ greedyGroups (simOf (rowDocs rows)) th rows.length)
    (hk : k ∈ g)
    (hids : (rowIds rows).Nodup)
    (hfresh : hasKey t0 ((rowIds rows).getD k "") = false) :
    (∃ r, List.find? (fun row => row.id == (rowIds rows).getD k "")
        (clusterMain simOf th rows t0).1 = some r ∧
      r.cluster_id =
        "c_" ++ (sha1 (String.join (g.map (fun m => (rowIds rows).getD m "")))).take 16) ∧
    clusterId ["docA", "docB"] ≠ clusterId ["docB", "docA"] := by
  have hflat := groupLoop_spec (simOf (rowDocs rows)) th rows.length rows.length 0 ∅
    (by omega)
  rw [← List.range_eq_range'] at hflat
  have hmemf : k ∈ (greedyGroups (simOf (rowDocs rows)) th rows.length).flatten :=
    List.mem_flatten.2 ⟨g, hg, hk⟩
  have hkn : k < rows.length := ((hflat.2.2 k).1 hmemf).2.1
  have hne : rows.isEmpty = false := by
    cases rows with
    | nil => simp at hkn
    | cons r rs => rfl
  have hlen : (rowIds rows).length = rows.length := by simp [rowIds]
  have huniq : ∀ m ∈ (greedyGroups (simOf (rowDocs rows)) th rows.length).flatten,
      (rowIds rows).getD m "" = (rowIds rows).getD k "" → m = k := by
    intro m hm hmd
    have hmn : m < rows.length := ((hflat.2.2 m).1 hm).2.1
    rw [List.getD_eq_getElem _ _ (by omega : m < (rowIds rows).length),
      List.getD_eq_getElem _ _ (by omega : k < (rowIds rows).length)] at hmd
    exact (List.Nodup.getElem_inj_iff hids).1 hmd
  constructor
  · simp only [clusterMain, hne, Bool.false_eq_true, if_false]
    rcases persistGroups_find (rowIds rows) (rowTitles rows)
      (greedyGroups (simOf (rowDocs rows)) th rows.length) t0 g k
      ((rowIds rows).getD k "") hg hk rfl hfresh hflat.2.1 huniq with ⟨r, hr, hrc⟩
    exact ⟨r, hr, hrc⟩
  · decide

/-- A constant zero similarity matrix, for concrete instantiations. -/
def simZero : Nat → Nat → ℚ := fun _ _ => 0

/-- A similarity builder that declares every pair similar, for concrete
instantiations. -/
def simOne : List String → Nat → Nat → ℚ := fun _ _ _ => 1

/-- A concrete two-row sample (the second row has a NULL title). -/
def rowsEx : List SampleRow :=
  [⟨"docA", some "T", some "x"⟩, ⟨"docB", none, some "y"⟩]

/-- Witness for claim C1: at threshold `1` over a zero similarity matrix
on two documents, the partition theorem applies to the concrete group
`[0]` and the concrete index `0`. -/
theorem greedyGroups_partition_witness :
    ([0] ≠ ([] : List Nat)) ∧ ([0] : List Nat).Nodup ∧
      (0 ∈ (greedyGroups simZero 1 2).flatten ↔ 0 < 2) :=
  ⟨(greedyGroups_partition simZero 1 2).1 [0] (by decide),
    (greedyGroups_partition simZero 1 2).2.1 [0] (by decide),
    (greedyGroups_partition simZero 1 2).2.2.2 0⟩

/-- A concrete pre-existing assignment for the id `docA`, pointing at a
cluster id the engine would not compute. -/
def preTable : List ClusterRow := [⟨"c_X", "docA", "oldT", "\x7b\x7d"⟩]

/-- Witness for claim C4: `docA` is pre-assigned to cluster `c_X` in
`preTable`; a run over a sample containing `docA` leaves its row exactly
as found and counts only appended rows. -/
theorem clusterMain_immutable_witness :
    hasKey preTable "docA" = true ∧
      (List.find? (fun r => r.id == "docA") (clusterMain simOne 0 rowsEx preTable).1 =
        List.find? (fun r => r.id == "docA") preTable ∧
      (clusterMain simOne 0 rowsEx preTable).2 =
        (clusterMain simOne 0 rowsEx preTable).1.length - preTable.length) :=
  ⟨by decide, clusterMain_immutable simOne 0 rowsEx preTable "docA" (by decide)⟩

/-- Witness for claim C5: with both documents fully similar at threshold
`0`, the grouper emits the single group `[0, 1]`, and the fresh member
`0` is stored under the id derived from the ids `docA`, `docB` in that
order. -/
theorem clusterMain_cluster_id_witness :
    ([0, 1] ∈ greedyGroups (simOne (rowDocs rowsEx)) 0 rowsEx.length ∧
      0 ∈ ([0, 1] : List Nat) ∧ (rowIds rowsEx).Nodup ∧
      hasKey [] ((rowIds rowsEx).getD 0 "") = false) ∧
    ((∃ r, List.find? (fun row => row.id == (rowIds rowsEx).getD 0 "")
        (clusterMain simOne 0 rowsEx []).1 = some r ∧
      r.cluster_id = "c_" ++
        (sha1 (String.join (([0, 1] : List Nat).map
          (fun m => (rowIds rowsEx).getD m "")))).take 16) ∧
    clusterId ["docA", "docB"] ≠ clusterId ["docB", "docA"]) :=
  ⟨⟨by decide, by decide, by decide, by decide⟩,
    clusterMain_cluster_id simOne 0 rowsEx [] [0, 1] 0
      (by decide) (by decide) (by decide) (by decide)⟩

/-! ## Properties of the run report -/

/-- In a descending-sorted list, entries at later positions are no
larger. -/
theorem sorted_ge_getElem (s : List Nat) (h : List.Sorted (fun a b => a ≥ b) s)
    (i j : Nat) (hi : i < s.length) (hj : j < s.length) (hij : i ≤ j) : s[j] ≤ s[i] := by
  rcases Nat.lt_or_ge i j with hlt | hge
  · have := h.rel_get_of_lt (a := ⟨i, hi⟩) (b := ⟨j, hj⟩) hlt
    simpa [List.get_eq_getElem] using this
  · have : i = j := by omega
    subst this
    exact le_refl _

/-- Claim C8: the run report surfaces the number of groups, the `created`
counter (total rows newly written), the size of the largest group (the
head of the descending-sorted size list), a median group size (an actual
group size with at least half the groups no larger and at least half no
smaller), and the number of singleton groups.  The reporter is a pure
function of the group list and the counter: it takes no table and
returns none, so persisted state cannot be modified. -/
theorem mkReport_fields (groups : List (List Nat)) (created : Nat) :
    (mkReport groups created).groups = groups.length ∧
    (mkReport groups created).links_written = created ∧
    (∀ g ∈ groups, g.length ≤ (mkReport groups created).largest_group) ∧
    (groups ≠ [] → ∃ g ∈ groups, (mkReport groups created).largest_group = g.length) ∧
    (groups ≠ [] → ∃ g ∈ groups, (mkReport groups created).median_group = g.length) ∧
    2 * groups.countP (fun g => g.length ≤ (mkReport groups created).median_group) ≥
      groups.length ∧
    2 * groups.countP (fun g => (mkReport groups created).median_group ≤ g.length) ≥
      groups.length ∧
    (mkReport groups created).singleton_groups =
      groups.countP (fun g => g.length == 1) := by
  have hsort : List.Sorted (fun a b => a ≥ b)
      (List.insertionSort (fun a b => a ≥ b) (groups.map List.length)) :=
    List.sorted_insertionSort _ _
  have hperm : (List.insertionSort (fun a b => a ≥ b) (groups.map List.length)).Perm
      (groups.map List.length) := List.perm_insertionSort _ _
  set s := List.insertionSort (fun a b => a ≥ b) (groups.map List.length) with hs
  have hlen : s.length = groups.length := by
    rw [hperm.length_eq, List.length_map]
  have hcount : ∀ p : Nat → Bool,
      s.countP p = groups.countP (fun g => p g.length) := by
    intro p
    rw [hperm.countP_eq, List.countP_map]
    rfl
  have hmem : ∀ x ∈ s, ∃ g ∈ groups, x = g.length := by
    intro x hx
    rcases List.mem_map.1 (hperm.mem_iff.1 hx) with ⟨g, hg, hgl⟩
    exact ⟨g, hg, hgl.symm⟩
  refine ⟨rfl, rfl, ?_, ?_, ?_, ?_, ?_, ?_⟩
  · intro g hg
    have hx : g.length ∈ s := hperm.mem_iff.2 (List.mem_map_of_mem _ hg)
    rcases List.mem_iff_getElem.1 hx with ⟨i, hi, hgi⟩
    have h0 : s[0] ≤ (mkReport groups created).largest_group := by
      simp only [mkReport, ← hs]
      rw [List.getD_eq_getElem s 0 (by omega)]
    calc g.length = s[i] := hgi.symm
      _ ≤ s[0] := sorted_ge_getElem s hsort 0 i (by omega) hi (by omega)
      _ ≤ _ := h0
  · intro hne
    have hsne : 0 < s.length := by
      rw [hlen]
      exact List.length_pos.2 hne
    have : (mkReport groups created).largest_group = s[0] := by
      simp only [mkReport, ← hs]
      rw [List.getD_eq_getElem s 0 hsne]
    rcases hmem s[0] (List.getElem_mem hsne) with ⟨g, hg, hgl⟩
    exact ⟨g, hg, by rw [this, hgl]⟩
  · intro hne
    have hsne : 0 < s.length := by
      rw [hlen]
      exact List.length_pos.2 hne
    have hmid : s.length / 2 < s.length := by omega
    have : (mkReport groups created).median_group = s[s.length / 2] := by
      simp only [mkReport, ← hs]
      rw [List.getD_eq_getElem s _ hmid]
    rcases hmem s[s.length / 2] (List.getElem_mem hmid) with ⟨g, hg, hgl⟩
    exact ⟨g, hg, by rw [this, hgl]⟩
  · rcases Nat.eq_zero_or_pos s.length with hz | hsne
    · have : groups.length = 0 := by omega
      rw [this]
      omega
    · have hmid : s.length / 2 < s.length := by omega
      have hmed : (mkReport groups created).median_group = s[s.length / 2] := by
        simp only [mkReport, ← hs]
        rw [List.getD_eq_getElem s _ hmid]
      rw [← hcount (fun x => decide (x ≤ (mkReport groups created).median_group))]
      have hdrop : (s.drop (s.length / 2)).countP
          (fun x => decide (x ≤ (mkReport groups created).median_group)) =
          (s.drop (s.length / 2)).length := by
        refine List.countP_eq_length.2 ?_
        intro x hx
        rcases List.mem_iff_getElem.1 hx with ⟨j, hj, hxj⟩
        have hj2 : s.length / 2 + j < s.length := by
          have := hj
          rw [List.length_drop] at this
          omega
        have : x = s[s.length / 2 + j] := by
          rw [← hxj, List.getElem_drop]
        rw [hmed]
        simp only [decide_eq_true_eq]
        rw [this]
        exact sorted_ge_getElem s hsort (s.length / 2) (s.length / 2 + j) hmid hj2
          (by omega)
      have hsplit : s.countP
          (fun x => decide (x ≤ (mkReport groups created).median_group)) =
          (s.take (s.length / 2)).countP
            (fun x => decide (x ≤ (mkReport groups created).median_group)) +
          (s.drop (s.length / 2)).countP
            (fun x => decide (x ≤ (mkReport groups created).median_group)) := by
        rw [← List.countP_append, List.take_append_drop]
      rw [hsplit, hdrop, List.length_drop, ← hlen]
      omega
  · rcases Nat.eq_zero_or_pos s.length with hz | hsne
    · have : groups.length = 0 := by omega
      rw [this]
      omega
    · have hmid : s.length / 2 < s.length := by omega
      have hmed : (mkReport groups created).median_group = s[s.length / 2] := by
        simp only [mkReport, ← hs]
        rw [List.getD_eq_getElem s _ hmid]
      rw [← hcount (fun x => decide ((mkReport groups created).median_group ≤ x))]
      have htake : (s.take (s.length / 2 + 1)).countP
          (fun x => decide ((mkReport groups created).median_group ≤ x)) =
          (s.take (s.length / 2 + 1)).length := by
        refine List.countP_eq_length.2 ?_
        intro x hx
        rcases List.mem_iff_getElem.1 hx with ⟨j, hj, hxj⟩
        have hj2 : j < s.length := by
          have := hj
          rw [List.length_take] at this
          omega
        have hjle : j ≤ s.length / 2 := by
          have := hj
          rw [List.length_take] at this
          omega
        have : x = s[j] := by
          rw [← hxj, List.getElem_take]
        rw [hmed]
        simp only [decide_eq_true_eq]
        rw [this]
        exact sorted_ge_getElem s hsort j (s.length / 2) hj2 hmid hjle
      have hlentake : (s.take (s.length / 2 + 1)).length = s.length / 2 + 1 := by
        rw [List.length_take]
        omega
      have hsplit : s.countP
          (fun x => decide ((mkReport groups created).median_group ≤ x)) =
          (s.take (s.length / 2 + 1)).countP
            (fun x => decide ((mkReport groups created).median_group ≤ x)) +
          (s.drop (s.length / 2 + 1)).countP
            (fun x => decide ((mkReport groups created).median_group ≤ x)) := by
        rw [← List.countP_append, List.take_append_drop]
      rw [hsplit, htake, hlentake, ← hlen]
      omega
  · simp only [mkReport, ← hs]
    rw [hcount]

/-- Witness for claim C8: for the concrete groups `[[0, 1], [2]]` with
`created = 3`, the report theorem applies to the concrete group `[0, 1]`
and the non-empty group list. -/
theorem mkReport_fields_witness :
    ([0, 1] : List Nat).length ≤ (mkReport [[0, 1], [2]] 3).largest_group ∧
    (∃ g ∈ [[0, 1], [2]], (mkReport [[0, 1], [2]] 3).largest_group = g.length) ∧
    (∃ g ∈ [[0, 1], [2]], (mkReport [[0, 1], [2]] 3).median_group = g.length) ∧
    (mkReport [[0, 1], [2]] 3).links_written = 3 :=
  ⟨(mkReport_fields [[0, 1], [2]] 3).2.2.1 [0, 1] (by decide),
    (mkReport_fields [[0, 1], [2]] 3).2.2.2.1 (by decide),
    (mkReport_fields [[0, 1], [2]] 3).2.2.2.2.1 (by decide),
    (mkReport_fields [[0, 1], [2]] 3).2.1⟩

/-! ## NULL handling for titles and bodies -/

/-- A sample row with NULL title and body replaced by the empty string,
as done by `r[1] or ""` and `r[2] or ""` in step 1. -/
def cleanRow (r : SampleRow) : SampleRow :=
  ⟨r.id, some (r.title.getD ""), some (r.text.getD "")⟩

/-- Claim C9: NULL titles and bodies are replaced by `""` before the
vectorizer input and the persisted title are built — the whole engine
behaves identically on a sample with NULLs and on the same sample with
every NULL replaced by the empty string (so such rows are processed and
persisted without error), and every row of the output table is either a
pre-existing row or carries as title the sampled row's title with NULL
replaced by `""`. -/
theorem clusterMain_null_fields (simOf : List String → Nat → Nat → ℚ) (th : ℚ)
    (rows : List SampleRow) (t0 : List ClusterRow) :
    clusterMain simOf th rows t0 = clusterMain simOf th (rows.map cleanRow) t0 ∧
    ∀ r ∈ (clusterMain simOf th rows t0).1, r ∈ t0 ∨
      ∃ k, k < rows.length ∧ r.title = ((rows.getD k ⟨"", none, none⟩).title).getD "" := by
  have hids : rowIds (rows.map cleanRow) = rowIds rows := by
    simp [rowIds, cleanRow, List.map_map]
  have htitles : rowTitles (rows.map cleanRow) = rowTitles rows := by
    simp [rowTitles, cleanRow, List.map_map]
  have htexts : rowTexts (rows.map cleanRow) = rowTexts rows := by
    simp [rowTexts, cleanRow, List.map_map]
  have hlen : (rows.map cleanRow).length = rows.length := List.length_map _ _
  have hempty : (rows.map cleanRow).isEmpty = rows.isEmpty := by
    cases rows <;> rfl
  have hdocs : rowDocs (rows.map cleanRow) = rowDocs rows := by
    simp only [rowDocs, htitles, htexts, hlen]
  constructor
  · simp only [clusterMain, hids, htitles, htexts, hlen, hempty, hdocs]
  · intro r hr
    by_cases hrows : rows.isEmpty
    · left
      simpa [clusterMain, hrows] using hr
    · have hne : rows.isEmpty = false := by
        rw [Bool.not_eq_true] at hrows
        exact hrows
      simp only [clusterMain, hne, Bool.false_eq_true, if_false] at hr
      rcases persistGroups_ext (rowIds rows) (rowTitles rows)
        (greedyGroups (simOf (rowDocs rows)) th rows.length) t0 with ⟨ext, h1, -, h3⟩
      rw [h1] at hr
      rcases List.mem_append.1 hr with hr | hr
      · exact Or.inl hr
      · right
        rcases h3 r hr with ⟨-, g, hg, k, hk, hform⟩
        have hflat := groupLoop_spec (simOf (rowDocs rows)) th rows.length rows.length 0 ∅
          (by omega)
        rw [← List.range_eq_range'] at hflat
        have hkn : k < rows.length :=
          ((hflat.2.2 k).1 (List.mem_flatten.2 ⟨g, hg, hk⟩)).2.1
        refine ⟨k, hkn, ?_⟩
        have htlen : k < (rowTitles rows).length := by
          rw [rowTitles, List.length_map]
          exact hkn
        rw [hform]
        show (rowTitles rows).getD k "" = _
        rw [List.getD_eq_getElem _ _ htlen, List.getD_eq_getElem _ _ hkn]
        simp [rowTitles]

set_option maxRecDepth 400000 in
/-- Witness for claim C9: running the engine on the concrete sample
whose second row has a NULL title stores for `docB` a row whose title is
the empty string. -/
theorem clusterMain_null_fields_witness :
    ((⟨"c_1659c88c6a4d38e3", "docB", "", "\x7b\x7d"⟩ : ClusterRow) ∈
      (clusterMain simOne 0 rowsEx []).1) ∧
    ((⟨"c_1659c88c6a4d38e3", "docB", "", "\x7b\x7d"⟩ : ClusterRow) ∈ ([] : List ClusterRow) ∨
      ∃ k, k < rowsEx.length ∧
        ("" : String) = ((rowsEx.getD k ⟨"", none, none⟩).title).getD "") :=
  ⟨by decide, (clusterMain_null_fields simOne 0 rowsEx []).2 _ (by decide)⟩

/-! ## Similarity matrix (step 3)

`cosine_similarity` is a scikit-learn call, external to the repository.
Modelled from the spec (§4.3): `sim(i,j) = (v_i · v_j) / (‖v_i‖ ‖v_j‖)`
where a zero vector's norm is replaced by `1` so that an undefined
cosine becomes `0` rather than NaN (scikit-learn row-normalizes with
zero norms replaced by one); weights are idealized as reals. -/

/-- Dot product of two weight vectors. -/
def dotProd (d : Nat) (x y : Fin d → ℝ) : ℝ := ∑ t, x t * y t

open Classical in
/-- Norm used by the similarity builder: the Euclidean norm, with zero
replaced by `1` so that all-zero vectors divide to `0` instead of NaN. -/
noncomputable def safeNorm (d : Nat) (x : Fin d → ℝ) : ℝ :=
  if dotProd d x x = 0 then 1 else Real.sqrt (dotProd d x x)

/-- One entry of the cosine similarity matrix. -/
noncomputable def simEntry (d : Nat) (x y : Fin d → ℝ) : ℝ :=
  dotProd d x y / (safeNorm d x * safeNorm d y)

/-- Counterexample to claim C6 as stated: for the sample consisting of a
single all-zero term vector (an empty document), the diagonal entry of
the computed similarity matrix is `0`, not `1` — the unconditional
clause `sim(i,i) = 1` conflicts with the zero-vector clause, and the
computation follows the latter. -/
theorem simEntry_diag_zero_counterexample :
    simEntry 1 (fun _ => (0 : ℝ)) (fun _ => (0 : ℝ)) = 0 ∧
    simEntry 1 (fun _ => (0 : ℝ)) (fun _ => (0 : ℝ)) ≠ 1 := by
  have h : simEntry 1 (fun _ => (0 : ℝ)) (fun _ => (0 : ℝ)) = 0 := by
    simp [simEntry, dotProd]
  exact ⟨h, by rw [h]; norm_num⟩

/-- Claim C6, amended: every diagonal entry of a document with non-zero
term vector is `1`; every entry involving an all-zero term vector is `0`
— including the diagonal entry of the zero vector, which is `0` rather
than `1`; and no entry is NaN: the divisor of every entry is non-zero. -/
theorem simEntry_amended (d n : Nat) (v : Fin n → Fin d → ℝ) (i j : Fin n)
    (hi : dotProd d (v i) (v i) ≠ 0) (hj : ∀ t, v j t = 0) :
    simEntry d (v i) (v i) = 1 ∧
    simEntry d (v i) (v j) = 0 ∧
    simEntry d (v j) (v i) = 0 ∧
    simEntry d (v j) (v j) = 0 ∧
    safeNorm d (v i) * safeNorm d (v j) ≠ 0 := by
  have hnonneg : ∀ m : Fin n, 0 ≤ dotProd d (v m) (v m) := by
    intro m
    exact Finset.sum_nonneg fun t _ => mul_self_nonneg _
  have hpos : 0 < dotProd d (v i) (v i) := lt_of_le_of_ne (hnonneg i) (Ne.symm hi)
  have hnormpos : ∀ m : Fin n, 0 < safeNorm d (v m) := by
    intro m
    by_cases hm : dotProd d (v m) (v m) = 0
    · rw [safeNorm, if_pos hm]
      norm_num
    · rw [safeNorm, if_neg hm]
      exact Real.sqrt_pos.2 (lt_of_le_of_ne (hnonneg m) (Ne.symm hm))
  have hdotj : ∀ x : Fin d → ℝ, dotProd d x (v j) = 0 := by
    intro x
    simp only [dotProd, hj, mul_zero, Finset.sum_const_zero]
  have hdotj' : ∀ x : Fin d → ℝ, dotProd d (v j) x = 0 := by
    intro x
    simp only [dotProd, hj, zero_mul, Finset.sum_const_zero]
  refine ⟨?_, ?_, ?_, ?_, ?_⟩
  · rw [simEntry, safeNorm, if_neg hi, Real.mul_self_sqrt (le_of_lt hpos)]
    exact div_self hi
  · rw [simEntry, hdotj, zero_div]
  · rw [simEntry, hdotj', zero_div]
  · rw [simEntry, hdotj, zero_div]
  · exact ne_of_gt (mul_pos (hnormpos i) (hnormpos j))

/-- A concrete two-document sample over one term: document `0` has
weight `1`, document `1` is the zero vector. -/
noncomputable def vEx : Fin 2 → Fin 1 → ℝ := fun i _ => if i = 0 then 1 else 0

/-- Witness for the amended claim C6: in the sample `vEx`, document `0`
has non-zero self-product and document `1` is all-zero, so its diagonal
is `1`, the entries of the zero document are `0`, and the divisor is
non-zero. -/
theorem simEntry_amended_witness :
    (dotProd 1 (vEx 0) (vEx 0) ≠ 0 ∧ ∀ t, vEx 1 t = 0) ∧
    (simEntry 1 (vEx 0) (vEx 0) = 1 ∧
      simEntry 1 (vEx 0) (vEx 1) = 0 ∧
      simEntry 1 (vEx 1) (vEx 0) = 0 ∧
      simEntry 1 (vEx 1) (vEx 1) = 0 ∧
      safeNorm 1 (vEx 0) * safeNorm 1 (vEx 1) ≠ 0) := by
  have h1 : dotProd 1 (vEx 0) (vEx 0) ≠ 0 := by
    simp [dotProd, vEx]
  have h2 : ∀ t, vEx 1 t = 0 := by
    intro t
    simp [vEx]
  exact ⟨⟨h1, h2⟩, simEntry_amended 1 2 vEx 0 1 h1 h2⟩

/-! ## Vectorizer (step 2)

`TfidfVectorizer` is a scikit-learn call, external to the repository.
Modelled from the spec (§4.2): the input is each document's
concatenated text; tokens are case-folded alphanumeric words; n-grams
between configurable bounds are counted; an optional stop-word list is
excluded entirely before weighting; the vocabulary is shared by the
sample and capped by retaining the highest-scoring terms; weights are
term frequency times inverse document frequency with document
frequencies from the current sample only (the logarithm of the standard
scheme is omitted: weights stay positive rationals and the claims below
do not depend on it); invalid n-gram bounds fail fast. -/

/-- Configuration surface of the vectorizer. -/
structure TfidfConfig where
  max_features : Nat
  ngram_min : Nat
  ngram_max : Nat
  stop_words : List String
deriving DecidableEq, Repr

/-- Case-folded maximal alphanumeric runs of a character list (`acc`
holds the current run, reversed). -/
def tokensAux : List Char → List Char → List String
  | [], acc => if acc.isEmpty then [] else [acc.reverse.asString]
  | c :: cs, acc =>
    if c.isAlphanum then tokensAux cs (c.toLower :: acc)
    else if acc.isEmpty then tokensAux cs []
    else acc.reverse.asString :: tokensAux cs []

/-- Case-folded word tokens of a document. -/
def tokensOf (s : String) : List String := tokensAux s.data []

/-- All `k`-grams of a token list, joined by single spaces. -/
def ngramsAt (k : Nat) (toks : List String) : List String :=
  (List.range (toks.length + 1 - k)).map
    (fun i => String.intercalate " " ((toks.drop i).take k))

/-- The terms of one document under a configuration: stop-words are
dropped from the token stream, then all n-grams in the configured span
are formed. -/
def docTerms (cfg : TfidfConfig) (doc : String) : List String :=
  (List.range' cfg.ngram_min (cfg.ngram_max + 1 - cfg.ngram_min)).flatMap
    (fun k => ngramsAt k ((tokensOf doc).filter (fun w => !(cfg.stop_words.contains w))))

/-- Occurrences of a term across the whole sample (the score used to
retain the highest-scoring terms under the vocabulary cap). -/
def termScore (cfg : TfidfConfig) (docs : List String) (t : String) : Nat :=
  (docs.flatMap (docTerms cfg)).count t

/-- Descending insertion by score. -/
def insertByScore (score : String → Nat) (x : String) : List String → List String
  | [] => [x]
  | y :: ys => if score y < score x then x :: y :: ys else y :: insertByScore score x ys

/-- Descending sort by score. -/
def sortByScore (score : String → Nat) : List String → List String
  | [] => []
  | x :: xs => insertByScore score x (sortByScore score xs)

/-- The sample-wide vocabulary: every distinct term, highest-scoring
first, truncated to the configured maximum size. -/
def vocabulary (cfg : TfidfConfig) (docs : List String) : List String :=
  (sortByScore (termScore cfg docs) (docs.flatMap (docTerms cfg)).dedup).take cfg.max_features

/-- Raw term frequency of a term in one document. -/
def termFreq (cfg : TfidfConfig) (doc t : String) : Nat := (docTerms cfg doc).count t

/-- Document frequency of a term in the current sample only. -/
def docFreq (cfg : TfidfConfig) (docs : List String) (t : String) : Nat :=
  docs.countP (fun d => (docTerms cfg d).contains t)

/-- Smoothed inverse document frequency over the current sample. -/
def idf (cfg : TfidfConfig) (docs : List String) (t : String) : ℚ :=
  mkRat (docs.length + 1) (docFreq cfg docs t + 1)

/-- The TF-IDF weight vector of one document over the sample's
vocabulary. -/
def tfidfRow (cfg : TfidfConfig) (docs : List String) (doc : String) : List ℚ :=
  (vocabulary cfg docs).map (fun t => (termFreq cfg doc t : ℚ) * idf cfg docs t)

/-- Validity of the configured n-gram bounds. -/
def validNgram (cfg : TfidfConfig) : Bool :=
  decide (1 ≤ cfg.ngram_min) && decide (cfg.ngram_min ≤ cfg.ngram_max)

/-- The vectorizer: fails fast on invalid n-gram bounds, otherwise
returns one TF-IDF row per document. -/
def fit_transform (cfg : TfidfConfig) (docs : List String) :
    Except String (List (List ℚ)) :=
  if validNgram cfg then Except.ok (docs.map (tfidfRow cfg docs))
  else Except.error "invalid ngram range"

/-- An empty document has no tokens. -/
theorem tokensOf_empty : tokensOf "" = [] := rfl

/-- An empty document contributes no terms under a valid configuration. -/
theorem docTerms_empty (cfg : TfidfConfig) (hval : validNgram cfg = true) :
    docTerms cfg "" = [] := by
  have hmin : 1 ≤ cfg.ngram_min := by
    simp only [validNgram, Bool.and_eq_true, decide_eq_true_eq] at hval
    exact hval.1
  rw [docTerms, tokensOf_empty]
  refine List.flatMap_eq_nil_iff.2 ?_
  intro k hk
  have hk1 : cfg.ngram_min ≤ k := (List.mem_range'_1.1 hk).1
  have : (List.filter (fun w => !(cfg.stop_words.contains w)) []).length + 1 - k = 0 := by
    simp only [List.filter_nil, List.length_nil]
    omega
  rw [ngramsAt, this]
  rfl

/-- Claim C7: for every sample, the vectorizer does not fail on empty or
very short documents — under valid n-gram bounds it returns one row per
document and every row of an empty document is all-zero; it raises
exactly on malformed configuration (invalid n-gram bounds). -/
theorem fit_transform_total (cfg : TfidfConfig) (docs : List String) :
    (validNgram cfg = true →
      ∃ vs, fit_transform cfg docs = Except.ok vs ∧ vs.length = docs.length ∧
        ∀ k, k < docs.length → docs.getD k "" = "" → ∀ q ∈ vs.getD k [], q = 0) ∧
    (validNgram cfg = false →
      fit_transform cfg docs = Except.error "invalid ngram range") := by
  constructor
  · intro hval
    refine ⟨docs.map (tfidfRow cfg docs), ?_, List.length_map _ _, ?_⟩
    · rw [fit_transform, hval]
      rfl
    · intro k hk hke q hq
      have hmap : (docs.map (tfidfRow cfg docs)).getD k [] = tfidfRow cfg docs docs[k] := by
        rw [List.getD_eq_getElem _ _ (by simpa using hk), List.getElem_map]
      have hdk : docs[k] = "" := by
        rw [← hke, List.getD_eq_getElem _ _ hk]
      rw [hmap, hdk] at hq
      rcases List.mem_map.1 hq with ⟨t, -, hql⟩
      have : termFreq cfg "" t = 0 := by
        rw [termFreq, docTerms_empty cfg hval]
        rfl
      rw [← hql, this]
      norm_num
  · intro hval
    rw [fit_transform, hval]
    rfl

/-- A valid vectorizer configuration (the engine's defaults, no stop
words). -/
def cfgOk : TfidfConfig := ⟨20000, 1, 2, []⟩

/-- A malformed configuration: the lower n-gram bound exceeds the upper
one. -/
def cfgBad : TfidfConfig := ⟨20000, 2, 1, []⟩

/-- Witness for claim C7: the valid configuration vectorizes the sample
`["hi there", ""]` successfully (with an all-zero second row), and the
malformed configuration fails fast. -/
theorem fit_transform_total_witness :
    (validNgram cfgOk = true ∧
      ∃ vs, fit_transform cfgOk ["hi there", ""] = Except.ok vs ∧
        vs.length = (["hi there", ""] : List String).length ∧
        ∀ k, k < (["hi there", ""] : List String).length →
          (["hi there", ""] : List String).getD k "" = "" → ∀ q ∈ vs.getD k [], q = 0) ∧
    (validNgram cfgBad = false ∧
      fit_transform cfgBad ["x"] = Except.error "invalid ngram range") :=
  ⟨⟨by decide, (fit_transform_total cfgOk ["hi there", ""]).1 (by decide)⟩,
    ⟨by decide, (fit_transform_total cfgBad ["x"]).2 (by decide)⟩⟩
